import Mathlib

/-
Verification of the linkage resolver in
`external-crates/move/crates/move-package-alt/src/graph/linkage.rs`
and its helper `Package::direct_deps` in
`external-crates/move/crates/move-package-alt/src/package/package_impl.rs`.

Rust aborts (assertion failures, unwrap and expect calls, index panics)
are modelled by `Option`:
a result of `none` means the Rust code aborts the process.
-/

namespace MovePackageAlt

/-- Rust `pub type EnvironmentName = String;` (package_impl.rs). -/
abbrev EnvironmentName := String

/-- Rust `pub type PackageName = Identifier;` (package_impl.rs); an identifier is a string. -/
abbrev PackageName := String

/-- Model of `OriginalID` (schema, not under src/): the stable on-chain identity of a
published package; an address, modelled as a natural number (it is only
compared and used as an ordered map key). -/
abbrev OriginalID := Nat

/-- petgraph `NodeIndex`: the index of a node in the graph arena. -/
abbrev NodeIndex := Nat

/-- Modelled from the spec: `PinnedDependencyInfo` is not under src/; the only
part linkage reads is the override flag ("each dependency flagged
override-or-not", spec section 2), read through `dep.is_override()`. -/
structure PinnedDependencyInfo where
  is_override : Bool
deriving DecidableEq

/-- Modelled from the spec: the publication record for one environment (spec
section 6: "if published, an (OriginalID, PublishedAddress) pair").  The two
fields read by linkage.rs are `published_at` and `original_id`; the published
address is an on-chain address, modelled as a natural number. -/
structure Publication where
  published_at : Nat
  original_id : OriginalID
deriving DecidableEq

/-- Modelled from the spec: the two parts of `Manifest` that
`Package::direct_deps` reads: `package_name()` and the keys of
`environments()`. -/
structure Manifest where
  package_name : String
  environments : List EnvironmentName
deriving DecidableEq

/-- Model of `Package` (package_impl.rs).  The filesystem-related fields
`path` and `source` are omitted: linkage never reads them.  `publish_data`
is the per-environment publish information; `deps` models the
`DependencySet`, mapping an environment to the pinned direct dependencies
(`deps_for` is an association-list lookup returning an optional map). -/
structure Package where
  manifest : Manifest
  publish_data : List (EnvironmentName × Publication)
  deps : List (EnvironmentName × List (PackageName × PinnedDependencyInfo))
deriving DecidableEq

/-- Model of `PackageError` (errors module, not under src/): only the `Generic`
variant is produced by the code under verification. -/
inductive PackageError where
  | Generic (msg : String)
deriving DecidableEq

/-- Model of `Package::direct_deps` (package_impl.rs lines 126-144): returns the pinned
direct dependencies for `env`, or an error if `env` is not declared in the
manifest. -/
def Package.direct_deps (p : Package) (env : EnvironmentName) :
    Except PackageError (List (PackageName × PinnedDependencyInfo)) :=
  if p.manifest.environments.contains env then
    Except.ok ((p.deps.lookup env).getD [])
  else
    Except.error (PackageError.Generic ("Package " ++ p.manifest.package_name ++
      " does not have " ++ env ++ " defined as an environment in its manifest"))

/-- Modelled from the spec: `Package::publication` is not under src/; it
returns the publish information of the package in `env`, if the package is
published there (spec section 6). -/
def Package.publication (p : Package) (env : EnvironmentName) : Option Publication :=
  p.publish_data.lookup env

/-- Model of `PackageGraph` (graph module): a petgraph `DiGraph` whose nodes
own a `Package` and whose edge weights are the dependency names.  Nodes are
the indices `0 .. packages.length - 1`; `edges` lists `(source, target, name)`
in insertion order.  petgraph guarantees that edge endpoints are valid node
indices; the predicate `PackageGraph.wf` below captures that structural
invariant. -/
structure PackageGraph where
  packages : List Package
  edges : List (NodeIndex × NodeIndex × PackageName)
deriving DecidableEq

/-- Edge endpoints produced by petgraph are always valid node indices. -/
def PackageGraph.wf (g : PackageGraph) : Prop :=
  ∀ e ∈ g.edges, e.1 < g.packages.length ∧ e.2.1 < g.packages.length

/-- Model of `self.inner.edges(node)`: the outgoing edges of `node` as
`(target, weight)` pairs.  petgraph iterates them most-recently-added first,
hence the reversal. -/
def PackageGraph.out_edges (g : PackageGraph) (node : NodeIndex) :
    List (NodeIndex × PackageName) :=
  ((g.edges.filter (fun e => e.1 == node)).map (fun e => (e.2.1, e.2.2))).reverse

/-- Model of `self.inner.neighbors(node)`: the targets of the outgoing edges of
`node`. -/
def PackageGraph.neighbors (g : PackageGraph) (node : NodeIndex) : List NodeIndex :=
  (g.out_edges node).map (fun e => e.1)

/-- Model of `LinkageError` (linkage.rs lines 22-66).  The petgraph type
`Cycle<NodeIndex>` carries one node index. -/
inductive LinkageError where
  | InconsistentLinkage (root node1 node2 : NodeIndex)
  | MultipleImplementations (root node1 node2 : NodeIndex)
  | CyclicDependencies (node : NodeIndex)
deriving DecidableEq

/-- A `BTreeMap` with `Nat` keys, as a sorted association list.
`btreeInsert` is `BTreeMap::insert`: it returns the previous binding of the
key (if any) together with the updated map. -/
def btreeInsert {α : Type} (k : Nat) (v : α) :
    List (Nat × α) → Option α × List (Nat × α)
  | [] => (none, [(k, v)])
  | (k2, v2) :: rest =>
    if k < k2 then
      (none, (k, v) :: (k2, v2) :: rest)
    else if k == k2 then
      (some v2, (k, v) :: rest)
    else
      ((btreeInsert k v rest).1, (k2, v2) :: (btreeInsert k v rest).2)

/-- Model of `BTreeMap::get`. -/
def btreeGet {α : Type} (k : Nat) : List (Nat × α) → Option α
  | [] => none
  | (k2, v2) :: rest => if k == k2 then some v2 else btreeGet k rest

/-- Rust `type LinkageTable = BTreeMap<OriginalID, NodeIndex>;` (linkage.rs line 71). -/
abbrev LinkageTable := List (OriginalID × NodeIndex)

/-- Whether the graph has an edge from `u` to `v`. -/
def hasEdge (g : PackageGraph) (u v : NodeIndex) : Bool :=
  g.edges.any (fun e => e.1 == u && e.2.1 == v)

/-- Whether `v` has no incoming edge from any node of `remaining`. -/
def noIncoming (g : PackageGraph) (remaining : List NodeIndex) (v : NodeIndex) : Bool :=
  remaining.all (fun u => !(hasEdge g u v))

/-- Pick a node of `remaining` with no incoming edge from `remaining`. -/
def pickZero (g : PackageGraph) (remaining : List NodeIndex) : Option NodeIndex :=
  remaining.find? (noIncoming g remaining)

/-- The Kahn algorithm, fuelled (the fuel is an upper bound on the number of
remaining nodes, so the fuel-exhaustion branch is unreachable): repeatedly
remove a node with no incoming edge among the remaining nodes.  It returns
the removed nodes in removal order, or, if it gets stuck, an error carrying
one of the remaining nodes. -/
def kahnAux (g : PackageGraph) : Nat → List NodeIndex → List NodeIndex →
    Except NodeIndex (List NodeIndex)
  | _, [], acc => Except.ok acc.reverse
  | 0, v :: _, _ => Except.error v
  | fuel + 1, v :: rest, acc =>
    match pickZero g (v :: rest) with
    | some w => kahnAux g fuel ((v :: rest).erase w) (w :: acc)
    | none => Except.error v

/-- Model of `petgraph::algo::toposort(&self.inner, None)` (linkage.rs line 77): a
topological order of all nodes in which every edge goes from an earlier node
to a later node, or a `Cycle` error carrying a node when none exists.
petgraph is an external library; this is a direct implementation of its
documented contract. -/
def toposort (g : PackageGraph) : Except NodeIndex (List NodeIndex) :=
  kahnAux g g.packages.length (List.range g.packages.length) []

/-- The publication lookups of `PackageGraph::overrides` (linkage.rs lines
160-172): for each override edge `(target, name)`, resolve the publication of the target in `env`; `.expect("TODO")` aborts if the target is not
published there. -/
def collectOverrides (g : PackageGraph) (env : EnvironmentName) :
    List (NodeIndex × PackageName) → Option (List (OriginalID × NodeIndex))
  | [] => some []
  | (target, _) :: rest =>
    match g.packages.get? target with
    | none => none
    | some tpkg =>
      match tpkg.publication env with
      | none => none
      | some pub_info =>
        match collectOverrides g env rest with
        | none => none
        | some entries => some ((pub_info.original_id, target) :: entries)

/-- Model of `PackageGraph::overrides` (linkage.rs lines 151-174): the original IDs of
the packages that are overridden in `node`, mapped to the corresponding edge
targets.  `direct_deps(env).unwrap()` aborts if `env` is not declared in the
manifest of the node. -/
def PackageGraph.overrides (g : PackageGraph) (env : EnvironmentName)
    (node : NodeIndex) : Option (List (OriginalID × NodeIndex)) :=
  match g.packages.get? node with
  | none => none
  | some pkg =>
    match pkg.direct_deps env with
    | Except.error _ => none
    | Except.ok deps =>
      let ovrNames := (deps.filter (fun nd => nd.2.is_override)).map (fun nd => nd.1)
      let es := (g.out_edges node).filter (fun e => ovrNames.contains e.2)
      match collectOverrides g env es with
      | none => none
      | some entries =>
        some (entries.foldl (fun m kv => (btreeInsert kv.1 kv.2 m).2) [])

/-- Model of `linkages[&n]` for each direct dependency `n`: the already-computed
linkage tables of the neighbors; indexing a `BTreeMap` aborts when the key
is absent. -/
def lookupTables (linkages : List (NodeIndex × LinkageTable)) :
    List NodeIndex → Option (List LinkageTable)
  | [] => some []
  | n :: rest =>
    match btreeGet n linkages with
    | none => none
    | some t =>
      match lookupTables linkages rest with
      | none => none
      | some ts => some (t :: ts)

/-- Concatenation of a list of lists (the `flat_map` of linkage.rs line 86). -/
def concatAll {α : Type} : List (List α) → List α
  | [] => []
  | t :: ts => t ++ concatAll ts

/-- The merge loop of `PackageGraph::linkage` (linkage.rs lines 92-138):
insert each `(original_id, pkg)` entry into the table under construction,
resolving collisions: same node, keep going; overridden, force the override
target; otherwise compare the published addresses of the two nodes in `env`
(aborting if either is unpublished, per the two `.expect(...)` calls) and
fail with `InconsistentLinkage` on equal addresses or
`MultipleImplementations` on different ones. -/
def mergeEntries (g : PackageGraph) (env : EnvironmentName) (node : NodeIndex)
    (ovr : List (OriginalID × NodeIndex)) :
    List (OriginalID × NodeIndex) → LinkageTable →
    Option (Except LinkageError LinkageTable)
  | [], linkage => some (Except.ok linkage)
  | (original_id, pkg) :: rest, linkage =>
    match btreeInsert original_id pkg linkage with
    | (none, linkage2) => mergeEntries g env node ovr rest linkage2
    | (some old_pkg, linkage2) =>
      if old_pkg == pkg then
        mergeEntries g env node ovr rest linkage2
      else
        match btreeGet original_id ovr with
        | some p => mergeEntries g env node ovr rest (btreeInsert original_id p linkage2).2
        | none =>
          match g.packages.get? old_pkg with
          | none => none
          | some oldp =>
            match oldp.publication env with
            | none => none
            | some old_pub =>
              match g.packages.get? pkg with
              | none => none
              | some newp =>
                match newp.publication env with
                | none => none
                | some new_pub =>
                  if new_pub.published_at == old_pub.published_at then
                    some (Except.error (LinkageError.InconsistentLinkage node old_pkg pkg))
                  else
                    some (Except.error (LinkageError.MultipleImplementations node old_pkg pkg))

/-- The per-node pass of `PackageGraph::linkage` (linkage.rs lines 80-143):
visit the nodes in reverse topological order; for each node, gather the
entries of the tables of its direct dependencies, compute its overrides,
merge the entries into a fresh table, and record it.  An error from the
merge aborts the whole resolution; a `none` is a Rust panic. -/
def linkageLoop (g : PackageGraph) (env : EnvironmentName) :
    List NodeIndex → List (NodeIndex × LinkageTable) →
    Option (Except LinkageError (List (NodeIndex × LinkageTable)))
  | [], linkages => some (Except.ok linkages)
  | node :: rest, linkages =>
    match lookupTables linkages (g.neighbors node) with
    | none => none
    | some tables =>
      match g.overrides env node with
      | none => none
      | some ovr =>
        match mergeEntries g env node ovr (concatAll tables) [] with
        | none => none
        | some (Except.error e) => some (Except.error e)
        | some (Except.ok linkage) =>
          linkageLoop g env rest (btreeInsert node linkage linkages).2

/-- Model of `PackageGraph::linkage` (linkage.rs lines 75-148): topologically sort the
graph (failing with `CyclicDependencies` on a cycle), run the per-node pass
in reverse topological order, and return the table of `sorted[0]` (indexing
aborts when the graph is empty). -/
def PackageGraph.linkage (g : PackageGraph) (env : EnvironmentName) :
    Option (Except LinkageError LinkageTable) :=
  match toposort g with
  | Except.error c => some (Except.error (LinkageError.CyclicDependencies c))
  | Except.ok sorted =>
    match linkageLoop g env sorted.reverse [] with
    | none => none
    | some (Except.error e) => some (Except.error e)
    | some (Except.ok linkages) =>
      match sorted with
      | [] => none
      | root :: _ =>
        match btreeGet root linkages with
        | none => none
        | some table => some (Except.ok table)

/-- The edge relation of the graph, as a proposition. -/
def edgeRel (g : PackageGraph) (u v : NodeIndex) : Prop :=
  hasEdge g u v = true

/-- The "depends on" edge relation contains a cycle. -/
def hasCycle (g : PackageGraph) : Prop :=
  ∃ v, Relation.TransGen (edgeRel g) v v

/-- Invariant of the Kahn algorithm: no remaining node has an edge into an
already-output node. -/
def kahnInv (g : PackageGraph) (remaining acc : List NodeIndex) : Prop :=
  ∀ x ∈ acc, ∀ u ∈ remaining, hasEdge g u x = false

/-- Test fixture: a package named `name` declaring only environment "e",
with the given pinned direct dependencies and publications. -/
def testPackage (name : String) (ds : List (PackageName × PinnedDependencyInfo))
    (pubs : List (EnvironmentName × Publication)) : Package :=
  { manifest := { package_name := name, environments := ["e"] }
  , publish_data := pubs
  , deps := [("e", ds)] }

/-- A graph with a single unpublished package and no edges. -/
def leafGraph : PackageGraph :=
  { packages := [testPackage "p" [] []], edges := [] }

/-- A graph with a single package that depends on itself. -/
def cycleGraph : PackageGraph :=
  { packages := [testPackage "p" [("p", ⟨false⟩)] []]
  , edges := [(0, 0, "p")] }

/-- Unresolved diamond: root(0) depends on a(1) and b(2); a depends on l1(3)
and b on l2(4); l1 and l2 are distinct nodes sharing OriginalID 55 but
published at different addresses (100 and 200) in "e"; no override. -/
def diamondDiffAddr : PackageGraph :=
  { packages :=
      [ testPackage "root" [("a", ⟨false⟩), ("b", ⟨false⟩)] []
      , testPackage "a" [("l", ⟨false⟩)] []
      , testPackage "b" [("l", ⟨false⟩)] []
      , testPackage "l" [] [("e", ⟨100, 55⟩)]
      , testPackage "l" [] [("e", ⟨200, 55⟩)] ]
  , edges := [(0, 1, "a"), (0, 2, "b"), (1, 3, "l"), (2, 4, "l")] }

/-- Duplicate-address diamond: as `diamondDiffAddr`, but the two distinct
nodes l1(3) and l2(4) share both OriginalID 55 and published address 100. -/
def diamondSameAddr : PackageGraph :=
  { packages :=
      [ testPackage "root" [("a", ⟨false⟩), ("b", ⟨false⟩)] []
      , testPackage "a" [("l", ⟨false⟩)] []
      , testPackage "b" [("l", ⟨false⟩)] []
      , testPackage "l" [] [("e", ⟨100, 55⟩)]
      , testPackage "l" [] [("e", ⟨100, 55⟩)] ]
  , edges := [(0, 1, "a"), (0, 2, "b"), (1, 3, "l"), (2, 4, "l")] }

/-- No-conflict diamond: root(0) depends on a(1) and b(2), which both depend
on the same node l(3), published with OriginalID 55 in "e". -/
def diamondShared : PackageGraph :=
  { packages :=
      [ testPackage "root" [("a", ⟨false⟩), ("b", ⟨false⟩)] []
      , testPackage "a" [("l", ⟨false⟩)] []
      , testPackage "b" [("l", ⟨false⟩)] []
      , testPackage "l" [] [("e", ⟨100, 55⟩)] ]
  , edges := [(0, 1, "a"), (0, 2, "b"), (1, 3, "l"), (2, 3, "l")] }

/-- Overridden diamond: as `diamondDiffAddr`, but root also has a direct
dependency on l2(4) marked `override = true`, so the override map of root sends
OriginalID 55 to node 4. -/
def diamondOverride : PackageGraph :=
  { packages :=
      [ testPackage "root" [("a", ⟨false⟩), ("b", ⟨false⟩), ("l", ⟨true⟩)] []
      , testPackage "a" [("l", ⟨false⟩)] []
      , testPackage "b" [("l", ⟨false⟩)] []
      , testPackage "l" [] [("e", ⟨100, 55⟩)]
      , testPackage "l" [] [("e", ⟨200, 55⟩)] ]
  , edges := [(0, 1, "a"), (0, 2, "b"), (0, 4, "l"), (1, 3, "l"), (2, 4, "l")] }

/-- A graph whose root(0) declares an override dependency on x(1), where x is
not published in "e". -/
def unpublishedOverride : PackageGraph :=
  { packages := [testPackage "root" [("x", ⟨true⟩)] [], testPackage "x" [] []]
  , edges := [(0, 1, "x")] }

theorem btreeGet_mem {α : Type} (k : Nat) (l : List (Nat × α)) (v : α)
    (h : btreeGet k l = some v) : (k, v) ∈ l := by
  induction l with
  | nil => simp [btreeGet] at h
  | cons kv rest ih =>
    obtain ⟨k2, v2⟩ := kv
    simp only [btreeGet] at h
    split at h
    · next heq =>
      injection h with h
      subst h
      have hk : k = k2 := by simpa using heq
      subst hk
      exact List.mem_cons_self _ _
    · exact List.mem_cons_of_mem _ (ih h)

theorem btreeInsert_mem {α : Type} (k : Nat) (v : α) (l : List (Nat × α)) (kv : Nat × α)
    (h : kv ∈ (btreeInsert k v l).2) : kv = (k, v) ∨ kv ∈ l := by
  induction l with
  | nil =>
    simp only [btreeInsert, List.mem_singleton] at h
    exact Or.inl h
  | cons kv2 rest ih =>
    obtain ⟨k2, v2⟩ := kv2
    simp only [btreeInsert] at h
    split at h
    · rcases List.mem_cons.mp h with h | h
      · exact Or.inl h
      · exact Or.inr h
    · split at h
      · rcases List.mem_cons.mp h with h | h
        · exact Or.inl h
        · exact Or.inr (List.mem_cons_of_mem _ h)
      · rcases List.mem_cons.mp h with h | h
        · exact Or.inr (by simp [h])
        · rcases ih h with h | h
          · exact Or.inl h
          · exact Or.inr (List.mem_cons_of_mem _ h)

theorem btreeGet_insert {α : Type} (x k : Nat) (v : α) (l : List (Nat × α)) :
    btreeGet x (btreeInsert k v l).2 = if x = k then some v else btreeGet x l := by
  induction l with
  | nil =>
    by_cases h : x = k <;> simp [btreeInsert, btreeGet, h]
  | cons kv2 rest ih =>
    obtain ⟨k2, v2⟩ := kv2
    simp only [btreeInsert]
    by_cases h1 : k < k2
    · by_cases h2 : x = k <;> simp [h1, btreeGet, h2]
    · by_cases heq : k = k2
      · have hbeq : (k == k2) = true := by simpa using heq
        by_cases h2 : x = k
        · simp [h1, hbeq, btreeGet, h2, heq]
        · have : ¬ x = k2 := heq ▸ h2
          simp [h1, hbeq, btreeGet, h2, this]
      · have hbeq : (k == k2) = false := by simpa using heq
        by_cases h2 : x = k
        · subst h2
          have hk2 : ¬ x = k2 := heq
          simp [h1, hbeq, btreeGet, hk2, ih]
        · by_cases h3 : x = k2
          · subst h3
            have hne : ¬ x = k := h2
            simp [h1, hbeq, btreeGet, hne, ih]
          · simp [h1, hbeq, btreeGet, h2, h3, ih]

theorem lookupTables_mem (linkages : List (NodeIndex × LinkageTable))
    (ns : List NodeIndex) (ts : List LinkageTable) (t : LinkageTable)
    (h : lookupTables linkages ns = some ts) (ht : t ∈ ts) :
    ∃ k, btreeGet k linkages = some t := by
  induction ns generalizing ts with
  | nil =>
    simp only [lookupTables] at h
    injection h with h
    subst h
    simp at ht
  | cons n rest ih =>
    simp only [lookupTables] at h
    split at h
    · exact absurd h (by simp)
    · next t0 hget =>
      split at h
      · exact absurd h (by simp)
      · next ts0 hrest =>
        injection h with h
        subst h
        rcases List.mem_cons.mp ht with h | h
        · exact ⟨n, h ▸ hget⟩
        · exact ih ts0 hrest h

theorem lookupTables_isSome (linkages : List (NodeIndex × LinkageTable))
    (ns : List NodeIndex)
    (h : ∀ w ∈ ns, (btreeGet w linkages).isSome = true) :
    ∃ ts, lookupTables linkages ns = some ts := by
  induction ns with
  | nil => exact ⟨[], rfl⟩
  | cons n rest ih =>
    have hn := h n (List.mem_cons_self _ _)
    obtain ⟨t, ht⟩ := Option.isSome_iff_exists.mp hn
    obtain ⟨ts, hts⟩ := ih (fun w hw => h w (List.mem_cons_of_mem _ hw))
    exact ⟨t :: ts, by simp only [lookupTables, ht, hts]⟩

theorem concatAll_nil {α : Type} (ts : List (List α))
    (h : ∀ t ∈ ts, t = []) : concatAll ts = [] := by
  induction ts with
  | nil => rfl
  | cons t rest ih =>
    simp only [concatAll]
    rw [h t (List.mem_cons_self _ _), ih (fun u hu => h u (List.mem_cons_of_mem _ hu))]
    rfl

theorem linkageLoop_tables_empty (g : PackageGraph) (env : EnvironmentName) :
    ∀ (o : List NodeIndex) (acc : List (NodeIndex × LinkageTable)),
    (∀ kv ∈ acc, kv.2 = ([] : LinkageTable)) →
    linkageLoop g env o acc = none ∨
      ∃ L, linkageLoop g env o acc = some (Except.ok L) ∧ ∀ kv ∈ L, kv.2 = [] := by
  intro o
  induction o with
  | nil => intro acc hacc; exact Or.inr ⟨acc, rfl, hacc⟩
  | cons node rest ih =>
    intro acc hacc
    cases hlt : lookupTables acc (g.neighbors node) with
    | none => exact Or.inl (by simp [linkageLoop, hlt])
    | some tables =>
      have htabs : ∀ t ∈ tables, t = [] := by
        intro t ht
        obtain ⟨k, hk⟩ := lookupTables_mem acc _ tables t hlt ht
        exact hacc (k, t) (btreeGet_mem k acc t hk)
      have hconcat : concatAll tables = [] := concatAll_nil tables htabs
      cases hov : g.overrides env node with
      | none => exact Or.inl (by simp [linkageLoop, hlt, hov])
      | some ovr =>
        have heq : linkageLoop g env (node :: rest) acc
            = linkageLoop g env rest (btreeInsert node [] acc).2 := by
          simp only [linkageLoop, hlt, hov, hconcat, mergeEntries]
        rw [heq]
        refine ih _ (fun kv hkv => ?_)
        rcases btreeInsert_mem node [] acc kv hkv with h | h
        · rw [h]
        · exact hacc kv h

theorem linkageLoop_none_of_bad_node (g : PackageGraph) (env : EnvironmentName)
    (v : NodeIndex) (hbad : g.overrides env v = none) :
    ∀ (o : List NodeIndex) (acc : List (NodeIndex × LinkageTable)),
    v ∈ o → (∀ kv ∈ acc, kv.2 = ([] : LinkageTable)) →
    linkageLoop g env o acc = none := by
  intro o
  induction o with
  | nil => intro acc hmem; simp at hmem
  | cons node rest ih =>
    intro acc hmem hacc
    cases hlt : lookupTables acc (g.neighbors node) with
    | none => simp [linkageLoop, hlt]
    | some tables =>
      have htabs : ∀ t ∈ tables, t = [] := by
        intro t ht
        obtain ⟨k, hk⟩ := lookupTables_mem acc _ tables t hlt ht
        exact hacc (k, t) (btreeGet_mem k acc t hk)
      have hconcat : concatAll tables = [] := concatAll_nil tables htabs
      cases hov : g.overrides env node with
      | none => simp [linkageLoop, hlt, hov]
      | some ovr =>
        have heq : linkageLoop g env (node :: rest) acc
            = linkageLoop g env rest (btreeInsert node [] acc).2 := by
          simp only [linkageLoop, hlt, hov, hconcat, mergeEntries]
        rw [heq]
        have hvrest : v ∈ rest := by
          rcases List.mem_cons.mp hmem with h | h
          · exfalso; rw [h] at hbad; rw [hbad] at hov; exact Option.noConfusion hov
          · exact h
        refine ih _ hvrest (fun kv hkv => ?_)
        rcases btreeInsert_mem node [] acc kv hkv with h | h
        · rw [h]
        · exact hacc kv h

theorem transGen_last (g : PackageGraph) (a b : NodeIndex)
    (h : Relation.TransGen (edgeRel g) a b) : ∃ u, edgeRel g u b := by
  induction h with
  | single h => exact ⟨_, h⟩
  | tail _ h _ => exact ⟨_, h⟩

theorem hasEdge_lt (g : PackageGraph) (hwf : g.wf) (u v : NodeIndex)
    (h : hasEdge g u v = true) :
    u < g.packages.length ∧ v < g.packages.length := by
  simp only [hasEdge, List.any_eq_true, Bool.and_eq_true, beq_iff_eq] at h
  obtain ⟨e, he, h1, h2⟩ := h
  have hw := hwf e he
  rw [h1, h2] at hw
  exact hw

theorem stuck_has_cycle (g : PackageGraph) (S : List NodeIndex) (hne : S ≠ [])
    (hpred : ∀ x ∈ S, ∃ u ∈ S, hasEdge g u x = true) : hasCycle g := by
  obtain ⟨v0, hv0⟩ : ∃ x, x ∈ S := by
    cases S with
    | nil => exact absurd rfl hne
    | cons a t => exact ⟨a, List.mem_cons_self _ _⟩
  have hpred2 : ∀ x : {y // y ∈ S}, ∃ u : {y // y ∈ S}, hasEdge g u.1 x.1 = true := by
    intro x
    obtain ⟨u, hu, he⟩ := hpred x.1 x.2
    exact ⟨⟨u, hu⟩, he⟩
  choose F hF using hpred2
  set fv : Nat → NodeIndex := fun k => (F^[k] ⟨v0, hv0⟩).1 with hfv
  have hstep : ∀ k, hasEdge g (fv (k + 1)) (fv k) = true := by
    intro k
    have h1 : F^[k + 1] ⟨v0, hv0⟩ = F (F^[k] ⟨v0, hv0⟩) :=
      Function.iterate_succ_apply' F k _
    simp only [hfv, h1]
    exact hF _
  have hchain : ∀ d i, Relation.TransGen (edgeRel g) (fv (i + d + 1)) (fv i) := by
    intro d
    induction d with
    | zero => intro i; exact Relation.TransGen.single (hstep i)
    | succ d ih =>
      intro i
      have h1 : i + (d + 1) + 1 = (i + d + 1) + 1 := by omega
      rw [h1]
      exact Relation.TransGen.head (hstep (i + d + 1)) (ih i)
  have hmaps : ∀ k ∈ Finset.range (S.length + 1), fv k ∈ S.toFinset := by
    intro k _
    exact List.mem_toFinset.mpr (F^[k] ⟨v0, hv0⟩).2
  have hcard : S.toFinset.card < (Finset.range (S.length + 1)).card := by
    rw [Finset.card_range]
    exact Nat.lt_succ_of_le (List.toFinset_card_le S)
  obtain ⟨i, hi, j, hj, hij, heq⟩ :=
    Finset.exists_ne_map_eq_of_card_lt_of_maps_to hcard hmaps
  rcases Nat.lt_or_ge i j with hlt | hge
  · have h1 : j = i + (j - i - 1) + 1 := by omega
    have h2 := hchain (j - i - 1) i
    rw [← h1] at h2
    rw [heq] at h2
    exact ⟨fv j, h2⟩
  · have hlt2 : j < i := by omega
    have h1 : i = j + (i - j - 1) + 1 := by omega
    have h2 := hchain (i - j - 1) j
    rw [← h1] at h2
    rw [← heq] at h2
    exact ⟨fv i, h2⟩

theorem kahnAux_error_cycle (g : PackageGraph) :
    ∀ (fuel : Nat) (remaining acc : List NodeIndex) (v : NodeIndex),
    remaining.length ≤ fuel →
    kahnAux g fuel remaining acc = Except.error v → hasCycle g := by
  intro fuel
  induction fuel with
  | zero =>
    intro remaining acc v hlen h
    cases remaining with
    | nil => simp [kahnAux] at h
    | cons a t => simp at hlen
  | succ fuel ih =>
    intro remaining acc v hlen h
    cases remaining with
    | nil => simp [kahnAux] at h
    | cons a t =>
      simp only [kahnAux] at h
      split at h
      · next w hpick =>
        have hw : w ∈ a :: t := List.mem_of_find?_eq_some hpick
        have hlen2 : ((a :: t).erase w).length ≤ fuel := by
          rw [List.length_erase_of_mem hw]
          simp only [List.length_cons] at hlen ⊢
          omega
        exact ih _ _ _ hlen2 h
      · next hpick =>
        have hstuck : ∀ x ∈ a :: t, ∃ u ∈ a :: t, hasEdge g u x = true := by
          intro x hx
          have hnone := List.find?_eq_none.mp hpick x hx
          simp only [noIncoming, List.all_eq_true, Bool.not_eq_true'] at hnone
          push_neg at hnone
          obtain ⟨u, hu, he⟩ := hnone
          refine ⟨u, hu, ?_⟩
          cases hcase : hasEdge g u x with
          | false => exact absurd hcase he
          | true => rfl
        exact stuck_has_cycle g (a :: t) (by simp) hstuck

theorem kahnAux_ok_no_stuck (g : PackageGraph) :
    ∀ (fuel : Nat) (remaining acc l : List NodeIndex),
    kahnAux g fuel remaining acc = Except.ok l →
    ∀ S : NodeIndex → Prop, (∀ x, S x → x ∈ remaining) → (∃ x, S x) →
    (∀ x, S x → ∃ u, S u ∧ hasEdge g u x = true) → False := by
  intro fuel
  induction fuel with
  | zero =>
    intro remaining acc l h S hsub hne hpred
    cases remaining with
    | nil =>
      obtain ⟨x, hx⟩ := hne
      exact absurd (hsub x hx) (List.not_mem_nil x)
    | cons a t => simp [kahnAux] at h
  | succ fuel ih =>
    intro remaining acc l h S hsub hne hpred
    cases remaining with
    | nil =>
      obtain ⟨x, hx⟩ := hne
      exact absurd (hsub x hx) (List.not_mem_nil x)
    | cons a t =>
      simp only [kahnAux] at h
      split at h
      · next w hpick =>
        have hno := List.find?_some hpick
        simp only [noIncoming, List.all_eq_true, Bool.not_eq_true'] at hno
        have hSw : ¬ S w := by
          intro hSw
          obtain ⟨u, hSu, he⟩ := hpred w hSw
          rw [hno u (hsub u hSu)] at he
          exact Bool.noConfusion he
        refine ih _ _ _ h S ?_ hne hpred
        intro x hx
        have hxw : x ≠ w := fun hh => hSw (hh ▸ hx)
        exact (List.mem_erase_of_ne hxw).mpr (hsub x hx)
      · next hpick => exact Except.noConfusion h

theorem cycle_stuck_set (g : PackageGraph) (hwf : g.wf) (h : hasCycle g) :
    ∃ S : NodeIndex → Prop,
      (∀ x, S x → x ∈ List.range g.packages.length) ∧ (∃ x, S x) ∧
      (∀ x, S x → ∃ u, S u ∧ hasEdge g u x = true) := by
  obtain ⟨v, hv⟩ := h
  refine ⟨fun u => Relation.ReflTransGen (edgeRel g) u v ∧
    Relation.TransGen (edgeRel g) v u, ?_, ⟨v, Relation.ReflTransGen.refl, hv⟩, ?_⟩
  · rintro x ⟨-, hvx⟩
    obtain ⟨u, hu⟩ := transGen_last g v x hvx
    rw [List.mem_range]
    exact (hasEdge_lt g hwf u x hu).2
  · rintro x ⟨hxv, hvx⟩
    cases hvx with
    | single h1 => exact ⟨v, ⟨Relation.ReflTransGen.refl, hv⟩, h1⟩
    | tail hp he => exact ⟨_, ⟨Relation.ReflTransGen.head he hxv, hp⟩, he⟩

theorem kahnAux_mem (g : PackageGraph) :
    ∀ (fuel : Nat) (remaining acc l : List NodeIndex),
    kahnAux g fuel remaining acc = Except.ok l →
    ∀ x, x ∈ l ↔ x ∈ remaining ∨ x ∈ acc := by
  intro fuel
  induction fuel with
  | zero =>
    intro remaining acc l h x
    cases remaining with
    | nil =>
      injection h with h
      subst h
      simp [List.mem_reverse]
    | cons a t => simp [kahnAux] at h
  | succ fuel ih =>
    intro remaining acc l h x
    cases remaining with
    | nil =>
      injection h with h
      subst h
      simp [List.mem_reverse]
    | cons a t =>
      simp only [kahnAux] at h
      split at h
      · next w hpick =>
        have hw : w ∈ a :: t := List.mem_of_find?_eq_some hpick
        have hih := ih _ _ _ h x
        rw [hih]
        constructor
        · rintro (h1 | h1)
          · exact Or.inl (List.mem_of_mem_erase h1)
          · rcases List.mem_cons.mp h1 with h2 | h2
            · exact Or.inl (h2 ▸ hw)
            · exact Or.inr h2
        · rintro (h1 | h1)
          · by_cases hxw : x = w
            · exact Or.inr (List.mem_cons.mpr (Or.inl hxw))
            · exact Or.inl ((List.mem_erase_of_ne hxw).mpr h1)
          · exact Or.inr (List.mem_cons_of_mem _ h1)
      · next hpick => exact Except.noConfusion h

theorem kahnAux_extends (g : PackageGraph) :
    ∀ (fuel : Nat) (remaining acc l : List NodeIndex),
    kahnAux g fuel remaining acc = Except.ok l →
    ∃ out, l = acc.reverse ++ out ∧ ∀ x ∈ out, x ∈ remaining := by
  intro fuel
  induction fuel with
  | zero =>
    intro remaining acc l h
    cases remaining with
    | nil =>
      injection h with h
      exact ⟨[], by simp [h.symm], by simp⟩
    | cons a t => simp [kahnAux] at h
  | succ fuel ih =>
    intro remaining acc l h
    cases remaining with
    | nil =>
      injection h with h
      exact ⟨[], by simp [h.symm], by simp⟩
    | cons a t =>
      simp only [kahnAux] at h
      split at h
      · next w hpick =>
        have hw : w ∈ a :: t := List.mem_of_find?_eq_some hpick
        obtain ⟨out2, hout2, hmem2⟩ := ih _ _ _ h
        refine ⟨w :: out2, ?_, ?_⟩
        · rw [hout2]
          simp
        · intro x hx
          rcases List.mem_cons.mp hx with h1 | h1
          · exact h1 ▸ hw
          · exact List.mem_of_mem_erase (hmem2 x h1)
      · next hpick => exact Except.noConfusion h


theorem kahnAux_noback (g : PackageGraph) :
    ∀ (fuel : Nat) (remaining acc out : List NodeIndex),
    kahnAux g fuel remaining acc = Except.ok (acc.reverse ++ out) →
    kahnInv g remaining acc →
    ∀ o1 v o2, out = o1 ++ v :: o2 → ∀ w, hasEdge g v w = true →
      w ∉ o1 ∧ w ≠ v ∧ w ∉ acc := by
  intro fuel
  induction fuel with
  | zero =>
    intro remaining acc out h hinv o1 v o2 hdec w hw
    cases remaining with
    | nil =>
      injection h with h
      have hlen := congrArg List.length h
      simp only [List.length_append] at hlen
      have : out = [] := List.length_eq_zero.mp (by omega)
      rw [this] at hdec
      exact absurd hdec.symm (by simp)
    | cons a t => simp [kahnAux] at h
  | succ fuel ih =>
    intro remaining acc out h hinv o1 v o2 hdec w hw
    cases remaining with
    | nil =>
      injection h with h
      have hlen := congrArg List.length h
      simp only [List.length_append] at hlen
      have : out = [] := List.length_eq_zero.mp (by omega)
      rw [this] at hdec
      exact absurd hdec.symm (by simp)
    | cons a t =>
      simp only [kahnAux] at h
      split at h
      · next p hpick =>
        have hp : p ∈ a :: t := List.mem_of_find?_eq_some hpick
        have hno := List.find?_some hpick
        simp only [noIncoming, List.all_eq_true, Bool.not_eq_true'] at hno
        obtain ⟨out2, hout2, hmem2⟩ := kahnAux_extends g _ _ _ _ h
        have hout3 : out = p :: out2 := by
          have h2 : acc.reverse ++ out = acc.reverse ++ p :: out2 := by
            rw [hout2]
            simp
          exact List.append_cancel_left h2
        have h4 : kahnAux g fuel ((a :: t).erase p) (p :: acc)
            = Except.ok ((p :: acc).reverse ++ out2) := by
          rw [h, hout3]
          simp
        have hinv2 : kahnInv g ((a :: t).erase p) (p :: acc) := by
          intro x hx u hu
          rcases List.mem_cons.mp hx with h1 | h1
          · exact h1 ▸ hno u (List.mem_of_mem_erase hu)
          · exact hinv x h1 u (List.mem_of_mem_erase hu)
        cases o1 with
        | nil =>
          simp only [List.nil_append] at hdec
          rw [hout3] at hdec
          injection hdec with hv hdec2
          subst hv
          refine ⟨by simp, ?_, ?_⟩
          · intro hwv
            rw [hwv] at hw
            rw [hno p hp] at hw
            exact Bool.noConfusion hw
          · intro hwacc
            rw [hinv w hwacc p hp] at hw
            exact Bool.noConfusion hw
        | cons b o1b =>
          rw [hout3] at hdec
          simp only [List.cons_append] at hdec
          injection hdec with hb hdec2
          subst hb
          obtain ⟨hn1, hn2, hn3⟩ := ih _ _ _ h4 hinv2 o1b v o2 hdec2 w hw
          refine ⟨?_, hn2, ?_⟩
          · intro hmem
            rcases List.mem_cons.mp hmem with h1 | h1
            · exact hn3 (h1 ▸ List.mem_cons_self _ _)
            · exact hn1 h1
          · exact fun hacc2 => hn3 (List.mem_cons_of_mem _ hacc2)
      · next hpick => exact Except.noConfusion h

theorem toposort_ok_mem (g : PackageGraph) (l : List NodeIndex)
    (h : toposort g = Except.ok l) (x : NodeIndex) :
    x ∈ l ↔ x < g.packages.length := by
  have hm := kahnAux_mem g _ _ _ l h x
  simpa [List.mem_range] using hm

theorem toposort_ok_after (g : PackageGraph) (hwf : g.wf) (l : List NodeIndex)
    (h : toposort g = Except.ok l)
    (o1 : List NodeIndex) (v : NodeIndex) (o2 : List NodeIndex)
    (hdec : l = o1 ++ v :: o2) (w : NodeIndex) (hw : hasEdge g v w = true) :
    w ∈ o2 := by
  have h2 : kahnAux g g.packages.length (List.range g.packages.length) []
      = Except.ok (List.reverse [] ++ l) := by simpa using h
  have hnb := kahnAux_noback g _ _ _ l h2 (by intro x hx; simp at hx)
    o1 v o2 hdec w hw
  have hwl : w ∈ l := (toposort_ok_mem g l h w).mpr (hasEdge_lt g hwf v w hw).2
  rw [hdec] at hwl
  rcases List.mem_append.mp hwl with h1 | h1
  · exact absurd h1 hnb.1
  · rcases List.mem_cons.mp h1 with h2 | h2
    · exact absurd h2 hnb.2.1
    · exact h2

theorem toposort_ok_of_acyclic (g : PackageGraph) (h : ¬ hasCycle g) :
    ∃ l, toposort g = Except.ok l := by
  cases htopo : toposort g with
  | error c =>
    exact absurd (kahnAux_error_cycle g _ _ _ c (by simp) htopo) h
  | ok l => exact ⟨l, rfl⟩

theorem toposort_error_of_cycle (g : PackageGraph) (hwf : g.wf) (h : hasCycle g) :
    ∃ c, toposort g = Except.error c := by
  cases htopo : toposort g with
  | error c => exact ⟨c, rfl⟩
  | ok l =>
    obtain ⟨S, hsub, hne, hpred⟩ := cycle_stuck_set g hwf h
    exact absurd (kahnAux_ok_no_stuck g _ _ _ l htopo S hsub hne hpred) not_false

theorem linkageLoop_total (g : PackageGraph) (env : EnvironmentName) :
    ∀ (o done : List NodeIndex) (acc : List (NodeIndex × LinkageTable)),
    (∀ x : NodeIndex, (btreeGet x acc).isSome = true ↔ x ∈ done) →
    (∀ kv ∈ acc, kv.2 = ([] : LinkageTable)) →
    (∀ v ∈ o, (g.overrides env v).isSome = true) →
    (∀ o1 v o2, o = o1 ++ v :: o2 → ∀ w ∈ g.neighbors v, w ∈ done ∨ w ∈ o1) →
    ∃ L, linkageLoop g env o acc = some (Except.ok L) ∧
      (∀ x : NodeIndex, (btreeGet x L).isSome = true ↔ x ∈ done ∨ x ∈ o) ∧
      (∀ kv ∈ L, kv.2 = ([] : LinkageTable)) := by
  intro o
  induction o with
  | nil =>
    intro done acc hkeys hemp hov hnb
    refine ⟨acc, rfl, fun x => ?_, hemp⟩
    rw [hkeys x]
    simp
  | cons node rest ih =>
    intro done acc hkeys hemp hov hnb
    have hnbhead : ∀ w ∈ g.neighbors node, w ∈ done := by
      intro w hw
      rcases hnb [] node rest rfl w hw with h1 | h1
      · exact h1
      · simp at h1
    have hlookup : ∀ w ∈ g.neighbors node, (btreeGet w acc).isSome = true :=
      fun w hw => (hkeys w).mpr (hnbhead w hw)
    obtain ⟨tables, htables⟩ := lookupTables_isSome acc _ hlookup
    have htabs : ∀ t ∈ tables, t = [] := by
      intro t ht
      obtain ⟨k, hk⟩ := lookupTables_mem acc _ tables t htables ht
      exact hemp (k, t) (btreeGet_mem k acc t hk)
    have hconcat : concatAll tables = [] := concatAll_nil tables htabs
    obtain ⟨ovr, hovr⟩ := Option.isSome_iff_exists.mp (hov node (List.mem_cons_self _ _))
    have heq : linkageLoop g env (node :: rest) acc
        = linkageLoop g env rest (btreeInsert node [] acc).2 := by
      simp only [linkageLoop, htables, hovr, hconcat, mergeEntries]
    have hkeys2 : ∀ x : NodeIndex,
        (btreeGet x (btreeInsert node ([] : LinkageTable) acc).2).isSome = true ↔
          x ∈ done ++ [node] := by
      intro x
      rw [btreeGet_insert]
      by_cases hx : x = node
      · simp [hx]
      · simp only [if_neg hx, List.mem_append, List.mem_singleton, hx, or_false]
        exact hkeys x
    have hemp2 : ∀ kv ∈ (btreeInsert node ([] : LinkageTable) acc).2, kv.2 = [] := by
      intro kv hkv
      rcases btreeInsert_mem node [] acc kv hkv with h | h
      · rw [h]
      · exact hemp kv h
    have hov2 : ∀ v ∈ rest, (g.overrides env v).isSome = true :=
      fun v hv => hov v (List.mem_cons_of_mem _ hv)
    have hnb2 : ∀ o1 v o2, rest = o1 ++ v :: o2 →
        ∀ w ∈ g.neighbors v, w ∈ done ++ [node] ∨ w ∈ o1 := by
      intro o1 v o2 hdec w hw
      have hdec2 : node :: rest = (node :: o1) ++ v :: o2 := by
        rw [hdec]; rfl
      rcases hnb (node :: o1) v o2 hdec2 w hw with h1 | h1
      · exact Or.inl (List.mem_append.mpr (Or.inl h1))
      · rcases List.mem_cons.mp h1 with h2 | h2
        · exact Or.inl (List.mem_append.mpr (Or.inr (by simp [h2])))
        · exact Or.inr h2
    obtain ⟨L, hL, hkeysL, hempL⟩ := ih (done ++ [node]) _ hkeys2 hemp2 hov2 hnb2
    refine ⟨L, by rw [heq]; exact hL, fun x => ?_, hempL⟩
    rw [hkeysL x]
    simp only [List.mem_append, List.mem_singleton, List.mem_cons]
    tauto

theorem neighbors_hasEdge (g : PackageGraph) (v w : NodeIndex)
    (h : w ∈ g.neighbors v) : hasEdge g v w = true := by
  simp only [PackageGraph.neighbors, List.mem_map] at h
  obtain ⟨te, hte, hw⟩ := h
  simp only [PackageGraph.out_edges, List.mem_reverse, List.mem_map,
    List.mem_filter] at hte
  obtain ⟨e, ⟨hmem, hsrc⟩, heq⟩ := hte
  simp only [hasEdge, List.any_eq_true, Bool.and_eq_true]
  refine ⟨e, hmem, hsrc, ?_⟩
  have h21 : e.2.1 = w := (congrArg Prod.fst heq).trans hw
  simp [h21]

theorem no_edges_no_cycle (g : PackageGraph) (h : g.edges = []) : ¬ hasCycle g := by
  rintro ⟨v, hv⟩
  obtain ⟨u, hu⟩ := transGen_last g v v hv
  simp only [edgeRel, hasEdge, h, List.any_nil] at hu
  exact Bool.noConfusion hu

theorem linkage_cases (g : PackageGraph) (env : EnvironmentName) :
    g.linkage env = none ∨
    (∃ c, g.linkage env = some (Except.error (LinkageError.CyclicDependencies c))) ∨
    g.linkage env = some (Except.ok ([] : LinkageTable)) := by
  cases htopo : toposort g with
  | error c => exact Or.inr (Or.inl ⟨c, by simp [PackageGraph.linkage, htopo]⟩)
  | ok sorted =>
    rcases linkageLoop_tables_empty g env sorted.reverse [] (by simp)
      with hloop | ⟨L, hloop, hLemp⟩
    · exact Or.inl (by simp [PackageGraph.linkage, htopo, hloop])
    · cases sorted with
      | nil =>
        simp only [List.reverse_nil] at hloop
        exact Or.inl (by simp [PackageGraph.linkage, htopo, hloop])
      | cons root rest =>
        simp only [List.reverse_cons] at hloop
        cases hget : btreeGet root L with
        | none => exact Or.inl (by simp [PackageGraph.linkage, htopo, hloop, hget])
        | some table =>
          have hte : table = [] := hLemp (root, table) (btreeGet_mem root L table hget)
          exact Or.inr (Or.inr (by simp [PackageGraph.linkage, htopo, hloop, hget, hte]))

/-- C1: for every input graph and every environment, every per-node
LinkageTable computed during linkage is empty (tables are built solely from
the already-finished tables of the dependencies, with no base-case insertion), the
root table returned by linkage is always empty, and the conflict branches
(`MultipleImplementations`, `InconsistentLinkage`) are never reached. -/
theorem claim1_linkage_tables_always_empty (g : PackageGraph) (env : EnvironmentName) :
    (∀ o acc L, (∀ kv ∈ acc, kv.2 = ([] : LinkageTable)) →
      linkageLoop g env o acc = some (Except.ok L) → ∀ kv ∈ L, kv.2 = []) ∧
    (∀ t, g.linkage env = some (Except.ok t) → t = []) ∧
    (∀ r n1 n2,
      g.linkage env ≠ some (Except.error (LinkageError.MultipleImplementations r n1 n2)) ∧
      g.linkage env ≠ some (Except.error (LinkageError.InconsistentLinkage r n1 n2))) := by
  refine ⟨?_, ?_, ?_⟩
  · intro o acc L hacc hok
    rcases linkageLoop_tables_empty g env o acc hacc with h | ⟨L2, h2, hemp⟩
    · rw [h] at hok; exact Option.noConfusion hok
    · rw [h2] at hok
      injection hok with hok
      injection hok with hok
      exact hok ▸ hemp
  · intro t hok
    rcases linkage_cases g env with h | ⟨c, h⟩ | h
    · rw [h] at hok; exact Option.noConfusion hok
    · rw [h] at hok
      injection hok with hok
      exact Except.noConfusion hok
    · rw [h] at hok
      injection hok with hok
      injection hok with hok
      exact hok.symm
  · intro r n1 n2
    rcases linkage_cases g env with h | ⟨c, h⟩ | h <;> rw [h] <;> constructor <;> simp

/-- Witness for C1 at a concrete graph: `leafGraph` resolves to the empty
table, and the theorem applies to it. -/
theorem claim1_witness :
    leafGraph.linkage "e" = some (Except.ok ([] : LinkageTable)) ∧
      ([] : LinkageTable) = [] :=
  ⟨rfl, (claim1_linkage_tables_always_empty leafGraph "e").2.1 [] rfl⟩

/-- C2 (evaluation at the failing input): on the unresolved diamond —
distinct nodes 3 and 4 sharing OriginalID 55 with different published
addresses in "e", reached via a(1) and b(2), no override — linkage does not
return `MultipleImplementations`; it succeeds with an empty table, because
no entry is ever inserted into any per-node table. -/
theorem claim2_diamond_diff_addr_result :
    diamondDiffAddr.linkage "e" = some (Except.ok ([] : LinkageTable)) := rfl

/-- C3: for every well-formed graph (edge endpoints in range, as petgraph
guarantees), if the edge relation has a cycle then linkage returns a
`CyclicDependencies` error, and if it is acyclic then linkage never returns
`CyclicDependencies`. -/
theorem claim3_cyclic_dependencies (g : PackageGraph) (env : EnvironmentName)
    (hwf : g.wf) :
    (hasCycle g →
      ∃ c, g.linkage env = some (Except.error (LinkageError.CyclicDependencies c))) ∧
    (¬ hasCycle g →
      ∀ c, g.linkage env ≠ some (Except.error (LinkageError.CyclicDependencies c))) := by
  constructor
  · intro hcyc
    obtain ⟨c, hc⟩ := toposort_error_of_cycle g hwf hcyc
    exact ⟨c, by simp [PackageGraph.linkage, hc]⟩
  · intro hac c
    rcases linkage_cases g env with h | ⟨c2, h⟩ | h
    · rw [h]; simp
    · exfalso
      obtain ⟨l, hl⟩ := toposort_ok_of_acyclic g hac
      simp only [PackageGraph.linkage, hl] at h
      rcases linkageLoop_tables_empty g env l.reverse [] (by simp)
        with hloop | ⟨L, hloop, hLemp⟩
      · rw [hloop] at h; simp at h
      · rw [hloop] at h
        cases l with
        | nil => simp at h
        | cons root rest =>
          cases hget : btreeGet root L with
          | none => simp [hget] at h
          | some table => simp [hget] at h
    · rw [h]; simp

/-- Witness for C3 at a concrete cyclic graph: `cycleGraph` is well-formed,
has a cycle, and linkage returns `CyclicDependencies`. -/
theorem claim3_witness :
    cycleGraph.wf ∧ hasCycle cycleGraph ∧
      (∃ c, cycleGraph.linkage "e"
        = some (Except.error (LinkageError.CyclicDependencies c))) := by
  have hwf : cycleGraph.wf := by unfold PackageGraph.wf; decide
  have hcyc : hasCycle cycleGraph := ⟨0, Relation.TransGen.single rfl⟩
  exact ⟨hwf, hcyc, (claim3_cyclic_dependencies cycleGraph "e" hwf).1 hcyc⟩

/-- C4 (evaluation at the failing input): on the no-conflict diamond —
root(0) depends on a(1) and b(2), both depending on the same node l(3) —
linkage succeeds, but the returned root table is empty rather than
containing one entry mapping OriginalID 55 to node 3. -/
theorem claim4_diamond_shared_result :
    diamondShared.linkage "e" = some (Except.ok ([] : LinkageTable)) := rfl

/-- C5 (evaluation at the failing input): on the overridden diamond — the
conflicting nodes 3 and 4 share OriginalID 55, and the manifest of root marks its
direct edge to node 4 as an override, so the override map of root is
`[(55, 4)]` — linkage succeeds, but the returned table is empty rather than
mapping OriginalID 55 to the override target 4. -/
theorem claim5_diamond_override_result :
    diamondOverride.overrides "e" 0 = some [(55, 4)] ∧
      diamondOverride.linkage "e" = some (Except.ok ([] : LinkageTable)) :=
  ⟨rfl, rfl⟩

/-- C6 (evaluation at the failing input): on the duplicate-address diamond —
distinct nodes 3 and 4 sharing OriginalID 55 and the same published address
100 in "e", no override — linkage does not return `InconsistentLinkage`; it
succeeds with an empty table. -/
theorem claim6_diamond_same_addr_result :
    diamondSameAddr.linkage "e" = some (Except.ok ([] : LinkageTable)) := rfl

/-- C7 (evaluation at the failing input): on a graph whose root declares an
override dependency on a package that is not published in the requested
environment, linkage aborts (the `.expect("TODO")` in
`PackageGraph::overrides` panics, modelled as `none`) instead of returning a
catchable error. -/
theorem claim7_unpublished_override_result :
    unpublishedOverride.linkage "e" = none := rfl

/-- C8: for every well-formed, acyclic, nonempty graph in which each node has
computable overrides that do not abort (its package declares `env` and
its override targets are published in `env`), if the root node — the first
node of the topological order, whose table `linkage` returns — is a leaf
with zero outgoing dependency edges, then linkage succeeds and returns the
empty LinkageTable. -/
theorem claim8_leaf_root_empty (g : PackageGraph) (env : EnvironmentName)
    (hwf : g.wf) (hac : ¬ hasCycle g) (hn : 0 < g.packages.length)
    (hov : ∀ v, v < g.packages.length → (g.overrides env v).isSome = true)
    (hleaf : ∀ root rest, toposort g = Except.ok (root :: rest) →
      g.neighbors root = []) :
    g.linkage env = some (Except.ok ([] : LinkageTable)) := by
  obtain ⟨l, hl⟩ := toposort_ok_of_acyclic g hac
  have hnb : ∀ o1 v o2, l.reverse = o1 ++ v :: o2 →
      ∀ w ∈ g.neighbors v, w ∈ ([] : List NodeIndex) ∨ w ∈ o1 := by
    intro o1 v o2 hdec w hw
    right
    have hl2 : l = o2.reverse ++ v :: o1.reverse := by
      have h2 := congrArg List.reverse hdec
      simpa [List.reverse_append] using h2
    have hedge : hasEdge g v w = true := neighbors_hasEdge g v w hw
    have h3 := toposort_ok_after g hwf l hl _ v _ hl2 w hedge
    simpa [List.mem_reverse] using h3
  have hov2 : ∀ v ∈ l.reverse, (g.overrides env v).isSome = true := by
    intro v hv
    apply hov
    rw [← toposort_ok_mem g l hl]
    simpa [List.mem_reverse] using hv
  obtain ⟨L, hL, hkeysL, hempL⟩ := linkageLoop_total g env l.reverse [] []
    (by intro x; simp [btreeGet]) (by simp) hov2 hnb
  cases l with
  | nil =>
    exfalso
    have h4 := (toposort_ok_mem g [] hl 0).mpr hn
    simp at h4
  | cons root rest =>
    have hrootL : (btreeGet root L).isSome = true := by
      rw [hkeysL root]
      right
      simp [List.mem_reverse]
    obtain ⟨table, htable⟩ := Option.isSome_iff_exists.mp hrootL
    have hte : table = [] := hempL (root, table) (btreeGet_mem root L table htable)
    simp only [List.reverse_cons] at hL
    simp [PackageGraph.linkage, hl, hL, htable, hte]

/-- Witness for C8 at a concrete graph: `leafGraph` is well-formed, acyclic,
nonempty, panic-free for "e", its root is a leaf, and linkage returns the
empty table. -/
theorem claim8_witness :
    leafGraph.linkage "e" = some (Except.ok ([] : LinkageTable)) := by
  refine claim8_leaf_root_empty leafGraph "e" ?_ ?_ ?_ ?_ ?_
  · unfold PackageGraph.wf; decide
  · exact no_edges_no_cycle leafGraph rfl
  · decide
  · decide
  · intro root rest h
    have h2 : Except.ok ([0] : List NodeIndex) = Except.ok (root :: rest) := h
    injection h2 with h2
    injection h2 with h3 h4
    rw [← h3]
    rfl

/-- C9: linkage resolution is a deterministic function of the graph and the
environment — two calls on equal inputs produce identical results (the model
is a pure function; the Rust code reads only `self` and `env`, uses no
global or interior-mutable state, and both petgraph traversal and BTreeMap
iteration are deterministic). -/
theorem claim9_linkage_deterministic (g1 g2 : PackageGraph)
    (env1 env2 : EnvironmentName) (hg : g1 = g2) (henv : env1 = env2) :
    g1.linkage env1 = g2.linkage env2 := by
  rw [hg, henv]

/-- Witness for C9 at a concrete input. -/
theorem claim9_witness : leafGraph.linkage "e" = leafGraph.linkage "e" :=
  claim9_linkage_deterministic leafGraph leafGraph "e" "e" rfl rfl

/-- C10: if the graph is acyclic and the package of some node does not declare the
requested environment in its manifest, then linkage aborts (the error of
`direct_deps` is unwrapped inside `overrides`, modelled as `none`) instead of
returning a `LinkageError`. -/
theorem claim10_missing_env_panics (g : PackageGraph) (env : EnvironmentName)
    (v : NodeIndex) (p : Package) (hac : ¬ hasCycle g)
    (hv : g.packages.get? v = some p)
    (henv : p.manifest.environments.contains env = false) :
    g.linkage env = none := by
  obtain ⟨l, hl⟩ := toposort_ok_of_acyclic g hac
  have hbad : g.overrides env v = none := by
    simp only [PackageGraph.overrides, hv, Package.direct_deps, henv,
      Bool.false_eq_true, if_false]
  have hvlt : v < g.packages.length := by
    obtain ⟨hlt, -⟩ := List.get?_eq_some.mp hv
    exact hlt
  have hvl : v ∈ l.reverse := by
    rw [List.mem_reverse, toposort_ok_mem g l hl]
    exact hvlt
  have hloop := linkageLoop_none_of_bad_node g env v hbad l.reverse [] hvl (by simp)
  simp [PackageGraph.linkage, hl, hloop]

/-- Witness for C10 at a concrete input: `leafGraph` declares only "e", so
resolving it for "x" aborts. -/
theorem claim10_witness :
    ¬ hasCycle leafGraph ∧ leafGraph.linkage "x" = none := by
  have hac : ¬ hasCycle leafGraph := no_edges_no_cycle leafGraph rfl
  exact ⟨hac, claim10_missing_env_panics leafGraph "x" 0 (testPackage "p" [] [])
    hac rfl rfl⟩

end MovePackageAlt
